import Mathlib

/-!
Verification of the PayPoint POS cart/inventory transaction engine
(`Burton.Downer_POS_Program_ITT103_SP2025.py`).

Shallow embedding conventions:
* Python ints are modelled as `ℤ`; prices (Python floats) are idealised as `ℚ`
  (the spec treats monetary values as exact decimals).
* Product objects are shared by reference between the catalog and cart lines,
  so a cart line's `product.stock` and the catalog's `product.stock` are the
  same cell.  We model the shared stock cells as a single map `ℤ → ℤ` from
  product id to stock, which is exactly the observable state of that aliasing.
* A cart line (`CartItem`) keeps only the product id and the quantity; the
  price lives in a separate immutable map `price : ℤ → ℚ` (the program never
  mutates prices).
* `print` side effects are dropped, except the low-stock alert of
  `check_low_stock`, whose emissions we count (the spec calls it an observable
  signal).
* Python's `return False` failure results are refined into the spec's error
  taxonomy (`InvalidQuantity`, `InsufficientStock`, `ItemNotFound`,
  `ExcessiveRemoval`), matching which message each `return False` prints.
-/

namespace POS

/-- One cart line (`CartItem`): product id plus quantity held. -/
structure Line where
  pid : ℤ
  qty : ℤ
  deriving DecidableEq, Repr

/-- The mutable state the cart engine touches: every product's stock cell
(`Product.stock`, keyed by product id) and the cart's list of lines
(`Cart.items`, in insertion order). -/
@[ext]
structure St where
  stock : ℤ → ℤ
  cart : List Line

/-- Spec §7 error taxonomy for cart operations. -/
inductive CartError where
  | invalidQuantity
  | insufficientStock
  | itemNotFound
  | excessiveRemoval
  deriving DecidableEq, Repr

/-- Point update of the stock map (a write through the shared `Product`
reference). -/
def updStock (stock : ℤ → ℤ) (pid v : ℤ) : ℤ → ℤ :=
  fun i => if i = pid then v else stock i

/-- `Cart.check_low_stock`: emits one low-stock alert when the product's
current stock is at most 5.  We return the number of alerts emitted (0 or 1). -/
def check_low_stock (stock : ℤ) : ℕ :=
  if stock ≤ 5 then 1 else 0

/-- The `for item in self.items` loop of `Cart.add_item` (source lines 85-95).
Returns `none` when no line matches `product.id` and the loop falls through;
otherwise returns the loop's result: the op result, the updated stock map, the
updated cart and the number of low-stock alerts emitted.

On a match (line 86) it computes `total_quantity = item.quantity + quantity`
and fails when `total_quantity > product.stock` (line 88, no mutation).
On success it runs, in source order: `item.quantity += quantity` (line 91),
`check_low_stock(item.product)` — note: stock not yet decremented (line 92),
`product.stock -= quantity` (line 93), `check_low_stock(product)` (line 94). -/
def addLoop (stock : ℤ → ℤ) (pid q : ℤ) :
    List Line → Option ((Except CartError Unit) × (ℤ → ℤ) × List Line × ℕ)
  | [] => none
  | item :: rest =>
    if item.pid = pid then
      some <|
        if item.qty + q > stock pid then
          (Except.error CartError.insufficientStock, stock, item :: rest, 0)
        else
          let s1 := check_low_stock (stock pid)
          let stock2 := updStock stock pid (stock pid - q)
          let s2 := check_low_stock (stock2 pid)
          (Except.ok (), stock2, ⟨item.pid, item.qty + q⟩ :: rest, s1 + s2)
    else
      (addLoop stock pid q rest).map fun r => (r.1, r.2.1, item :: r.2.2.1, r.2.2.2)

/-- `Cart.add_item(product, quantity)` (source lines 78-105).  `quantity` is a
Python `int`, modelled as `ℤ`; the guard `not isinstance(quantity, int) or
quantity <= 0` (line 79) therefore reduces to `quantity ≤ 0`.  After the
existing-line loop: the new-line branch fails when `quantity > product.stock`
(line 97), else appends a fresh `CartItem` (line 102), decrements stock
(line 103) and checks low stock (line 104).

Result: (op result, post state, low-stock alerts emitted). -/
def add_item (st : St) (pid q : ℤ) : (Except CartError Unit) × St × ℕ :=
  if q ≤ 0 then (Except.error CartError.invalidQuantity, st, 0)
  else
    match addLoop st.stock pid q st.cart with
    | some r => (r.1, ⟨r.2.1, r.2.2.1⟩, r.2.2.2)
    | none =>
      if q > st.stock pid then (Except.error CartError.insufficientStock, st, 0)
      else
        let stock2 := updStock st.stock pid (st.stock pid - q)
        (Except.ok (), ⟨stock2, st.cart ++ [⟨pid, q⟩]⟩, check_low_stock (stock2 pid))

/-- The `for item in list(self.items)` loop of `Cart.remove_item` (source
lines 115-129).  Returns (stock map, live cart segment for the processed
snapshot, alerts, `removed` flag, early-return flag).

On a match with `quantity > item.quantity` the method prints "NO CHANGES MADE"
and returns `False` immediately (lines 117-120): mutations already made to
earlier matching lines persist, the rest of the list is untouched.  On a
successful match it runs, in source order: `item.product.stock += quantity`
(line 121), `check_low_stock` (line 122), `item.quantity -= quantity`
(line 123), drops the line when its quantity reaches exactly 0 (lines
124-125), and a second `check_low_stock` (line 128); the loop then continues
over the rest of the snapshot. -/
def removeLoop (pid q : ℤ) (stock : ℤ → ℤ) :
    List Line → (ℤ → ℤ) × List Line × ℕ × Bool × Bool
  | [] => (stock, [], 0, false, false)
  | item :: rest =>
    if item.pid = pid then
      if q > item.qty then (stock, item :: rest, 0, false, true)
      else
        let stock2 := updStock stock pid (stock pid + q)
        let s1 := check_low_stock (stock2 pid)
        let newqty := item.qty - q
        let s2 := check_low_stock (stock2 pid)
        let seg : List Line := if newqty = 0 then [] else [⟨item.pid, newqty⟩]
        let r := removeLoop pid q stock2 rest
        if r.2.2.2.2 then (r.1, seg ++ r.2.1, s1 + s2 + r.2.2.1, r.2.2.2.1, true)
        else (r.1, seg ++ r.2.1, s1 + s2 + r.2.2.1, true, false)
    else
      let r := removeLoop pid q stock rest
      (r.1, item :: r.2.1, r.2.2.1, r.2.2.2.1, r.2.2.2.2)

/-- `Cart.remove_item(product_id, quantity)` (source lines 113-133): runs the
loop; an early `return False` is the spec's `ExcessiveRemoval`; `not removed`
("Item not found. No changes made.") is `ItemNotFound`; otherwise `True`.
Note the source validates neither positivity nor integrality of `quantity`
here.  Result: (op result, post state, low-stock alerts emitted). -/
def remove_item (st : St) (pid q : ℤ) : (Except CartError Unit) × St × ℕ :=
  let r := removeLoop pid q st.stock st.cart
  if r.2.2.2.2 then (Except.error CartError.excessiveRemoval, ⟨r.1, r.2.1⟩, r.2.2.1)
  else if r.2.2.2.1 then (Except.ok (), ⟨r.1, r.2.1⟩, r.2.2.1)
  else (Except.error CartError.itemNotFound, ⟨r.1, r.2.1⟩, r.2.2.1)

/-- Total quantity the cart currently holds for product `i`. -/
def cartQty (cart : List Line) (i : ℤ) : ℤ :=
  (cart.map fun l => if l.pid = i then l.qty else 0).sum

/-- The product ids of the cart's lines, in order. -/
def ids (cart : List Line) : List ℤ := cart.map Line.pid

/-- `Discount.apply_discount` (source lines 50-52): a flat 5% of the subtotal.
Python's float literal `0.05` is idealised as the rational `5 / 100`. -/
def Discount.apply_discount (subtotal : ℚ) : ℚ :=
  subtotal * (5 / 100)

/-- `Cart.discount_amount(subtotal)` (source lines 147-148):
`self.discount.apply_discount(subtotal) if subtotal >= 5000 else
self.discount == 0`.  Below the threshold the expression `self.discount == 0`
is the Python boolean `False`, which every downstream arithmetic use
(`total = (subtotal + tax) - discount`) and comparison (`discount > 0`)
treats as the number 0, so the branch is embedded as `0`. -/
def discount_amount (subtotal : ℚ) : ℚ :=
  if subtotal ≥ 5000 then Discount.apply_discount subtotal else 0

/-- `Cart.calculate_subtotal` (source lines 141-142): sum over cart lines of
`item.product.price * item.quantity`, at the product's current price
(`price : ℤ → ℚ` maps product id to `Product.price`). -/
def calculate_subtotal (price : ℤ → ℚ) (cart : List Line) : ℚ :=
  (cart.map fun l => price l.pid * (l.qty : ℚ)).sum

/-- `POS.recalculate_total` (source lines 433-438): recomputes
`(subtotal, tax, discount, total)` from the current cart state. -/
def recalculate_total (price : ℤ → ℚ) (tax_rate : ℚ) (st : St) : ℚ × ℚ × ℚ × ℚ :=
  let subtotal := calculate_subtotal price st.cart
  let tax := subtotal * tax_rate
  let discount := discount_amount subtotal
  let total := (subtotal + tax) - discount
  (subtotal, tax, discount, total)

/-- The tendering step of `POS.checkout` (source lines 445-456 and 510-513):
refuses an empty cart (line 446, `EmptyCart`, checkout not entered, modelled
as `none`); otherwise recomputes subtotal, tax, discount and total from the
cart (lines 453-456); on `payment ≥ total` computes `change = payment - total`
and calls `print_receipt`, whose only state effect is `self.cart.clear()`
(line 551) — stock is untouched.  `none` also stands for the shortfall branch
(`payment < total`), which does not commit. -/
def checkout_tender (price : ℤ → ℚ) (tax_rate : ℚ) (st : St) (payment : ℚ) :
    Option (ℚ × St) :=
  if st.cart = [] then none
  else
    let subtotal := calculate_subtotal price st.cart
    let tax := subtotal * tax_rate
    let discount := discount_amount subtotal
    let total := (subtotal + tax) - discount
    if payment < total then none
    else some (payment - total, ⟨st.stock, []⟩)

/-- The restocking loop of `POS.cancel_sale` (source lines 427-428):
`for item in self.cart.items: item.product.stock += item.quantity`. -/
def restock (stock : ℤ → ℤ) : List Line → (ℤ → ℤ)
  | [] => stock
  | item :: rest => restock (updStock stock item.pid (stock item.pid + item.qty)) rest

/-- `POS.cancel_sale` (source lines 426-431): restocks every cart line, then
`self.cart.clear()`. -/
def cancel_sale (st : St) : St :=
  ⟨restock st.stock st.cart, []⟩

/-- `User` (source lines 30-37). -/
structure User where
  username : String
  password : String
  role : String
  deriving DecidableEq, Repr

/-- `User.has_permission(required_role)` (source lines 36-37). -/
def has_permission (u : User) (required : String) : Bool :=
  u.role == required

/-- `POS.admin_login` (source lines 254-269), with the interactive prompts
factored out as the entered `username`/`password` and the user table as
`users : String → Option User` (the `self.users` dict).  Returns the login
result together with `self.current_user` after the call: on success
`current_user` becomes the admin (line 263); on failure it is untouched. -/
def admin_login (users : String → Option User) (username password : String)
    (current : User) : Option User × User :=
  match users username with
  | some u =>
      if u.password == password ∧ has_permission u "admin" then (some u, u)
      else (none, current)
  | none => (none, current)

/-- The admin-override branch of `POS.checkout`'s shortfall removal option
(source lines 481-489): `original_user = self.current_user`; on
`admin_login()` success run `remove_item_fr_cart()` once (modelled as the
caller-supplied interactive step `removal`, executed under the principal it
is given) and then restore `self.current_user = original_user` (line 485,
unconditionally, before the `removed` flag is inspected); on login failure
nothing runs (`continue`, line 489).  Returns
(current_user after, removed flag, cart state after, principals the removal
step ran as). -/
def checkout_admin_override (users : String → Option User)
    (username password : String) (current : User)
    (removal : User → St → Bool × St) (st : St) : User × Bool × St × List User :=
  let original_user := current
  match admin_login users username password current with
  | (some admin, _) =>
      let r := removal admin st
      (original_user, r.1, r.2, [admin])
  | (none, cur') => (cur', false, st, [])

/-- The successful-mutation transition system of the cart engine: states
reachable from initial stocks `init` and an empty cart by successful
`add_item` / `remove_item` calls. -/
inductive Reach (init : ℤ → ℤ) : St → Prop
  | base : Reach init ⟨init, []⟩
  | add {st st' : St} {pid q : ℤ} {n : ℕ} (h : Reach init st)
      (hop : add_item st pid q = (Except.ok (), st', n)) : Reach init st'
  | rem {st st' : St} {pid q : ℤ} {n : ℕ} (h : Reach init st)
      (hop : remove_item st pid q = (Except.ok (), st', n)) : Reach init st'

/-! ### Basic lemmas -/

theorem updStock_same (stock : ℤ → ℤ) (pid v : ℤ) : updStock stock pid v pid = v := by
  simp [updStock]

theorem updStock_other (stock : ℤ → ℤ) (pid v i : ℤ) (h : i ≠ pid) :
    updStock stock pid v i = stock i := by
  simp [updStock, h]

theorem cartQty_nil (i : ℤ) : cartQty [] i = 0 := rfl

theorem cartQty_cons (l : Line) (rest : List Line) (i : ℤ) :
    cartQty (l :: rest) i = (if l.pid = i then l.qty else 0) + cartQty rest i := by
  simp [cartQty]

theorem cartQty_append (a b : List Line) (i : ℤ) :
    cartQty (a ++ b) i = cartQty a i + cartQty b i := by
  simp [cartQty]

theorem ids_append (a b : List Line) : ids (a ++ b) = ids a ++ ids b := by
  simp [ids]

theorem ids_cons (l : Line) (rest : List Line) : ids (l :: rest) = l.pid :: ids rest := by
  simp [ids]

/-- Helper: a triple whose first component is `ok` is the `ok` triple of its
own projections. -/
theorem eq_ok_split {p : (Except CartError Unit) × St × ℕ}
    (h : p.1 = Except.ok ()) : p = (Except.ok (), p.2.1, p.2.2) := by
  obtain ⟨a, b, c⟩ := p
  simp_all

/-! ### `addLoop` characterization -/

theorem addLoop_none_iff (stock : ℤ → ℤ) (pid q : ℤ) (cart : List Line) :
    addLoop stock pid q cart = none ↔ pid ∉ ids cart := by
  induction cart with
  | nil => simp [addLoop, ids]
  | cons item rest ih =>
    by_cases hpid : item.pid = pid
    · simp [addLoop, hpid, ids]
    · simp [addLoop, hpid, ids, Option.map_eq_none', ih]
      intro h
      exact fun he => hpid he.symm

theorem addLoop_err (stock : ℤ → ℤ) (pid q : ℤ) (cart : List Line)
    (stk : ℤ → ℤ) (ls : List Line) (n : ℕ) (e : CartError)
    (h : addLoop stock pid q cart = some (Except.error e, stk, ls, n)) :
    e = CartError.insufficientStock ∧ stk = stock ∧ ls = cart ∧ n = 0 := by
  induction cart generalizing stk ls n with
  | nil => simp [addLoop] at h
  | cons item rest ih =>
    by_cases hpid : item.pid = pid
    · by_cases hq : item.qty + q > stock pid
      · simp [addLoop, hpid, hq] at h
        obtain ⟨h1, h2, h3, h4⟩ := h
        exact ⟨h1.symm, h2.symm, h3.symm, h4.symm⟩
      · simp [addLoop, hpid, hq] at h
    · simp only [addLoop, if_neg hpid, Option.map_eq_some'] at h
      obtain ⟨⟨r1, rstk, rls, rn⟩, hrec, heq⟩ := h
      simp only [Prod.mk.injEq] at heq
      obtain ⟨he1, he2, he3, he4⟩ := heq
      subst he2; subst he4
      cases r1 with
      | error e' =>
        injection he1 with he1'
        subst he1'
        obtain ⟨h1, h2, h3, h4⟩ := ih _ _ _ hrec
        exact ⟨h1, h2, by rw [← he3, h3], h4⟩
      | ok u => cases he1

theorem addLoop_ok (stock : ℤ → ℤ) (pid q : ℤ) (cart : List Line)
    (stk : ℤ → ℤ) (ls : List Line) (n : ℕ)
    (h : addLoop stock pid q cart = some (Except.ok (), stk, ls, n)) :
    ∃ pre e post, cart = pre ++ ⟨pid, e⟩ :: post ∧ pid ∉ ids pre ∧
      e + q ≤ stock pid ∧ stk = updStock stock pid (stock pid - q) ∧
      ls = pre ++ ⟨pid, e + q⟩ :: post ∧
      n = check_low_stock (stock pid) + check_low_stock (stock pid - q) := by
  induction cart generalizing stk ls n with
  | nil => simp [addLoop] at h
  | cons item rest ih =>
    by_cases hpid : item.pid = pid
    · by_cases hq : item.qty + q > stock pid
      · simp [addLoop, hpid, hq] at h
      · simp [addLoop, hpid, hq, updStock_same] at h
        obtain ⟨h1, h2, h3⟩ := h
        refine ⟨[], item.qty, rest, ?_, by simp [ids], not_lt.mp hq, h1.symm, ?_, h3.symm⟩
        · simp [← hpid]
        · simp [← h2, ← hpid]
    · simp only [addLoop, if_neg hpid, Option.map_eq_some'] at h
      obtain ⟨⟨r1, rstk, rls, rn⟩, hrec, heq⟩ := h
      simp only [Prod.mk.injEq] at heq
      obtain ⟨he1, he2, he3, he4⟩ := heq
      subst he2; subst he4
      cases r1 with
      | error e' => cases he1
      | ok u =>
        obtain ⟨pre, e, post, hc, hpre, hle, hstk, hls, hn⟩ := ih _ _ _ hrec
        refine ⟨item :: pre, e, post, by simp [hc], ?_, hle, hstk, ?_, hn⟩
        · rw [ids_cons]
          simp only [List.mem_cons, not_or]
          exact ⟨fun hcontra => hpid hcontra.symm, hpre⟩
        · rw [← he3, hls]; simp

/-! ### `add_item` characterization -/

theorem add_item_err (st : St) (pid q : ℤ) (st' : St) (n : ℕ) (e : CartError)
    (h : add_item st pid q = (Except.error e, st', n)) : st' = st ∧ n = 0 := by
  by_cases hq : q ≤ 0
  · simp [add_item, hq] at h
    exact ⟨h.2.1.symm, h.2.2.symm⟩
  · simp only [add_item, if_neg hq] at h
    cases hcl : addLoop st.stock pid q st.cart with
    | some r =>
      obtain ⟨r1, rstk, rls, rn⟩ := r
      rw [hcl] at h
      simp only [Prod.mk.injEq] at h
      obtain ⟨h1, h2, h3⟩ := h
      cases r1 with
      | error e' =>
        cases h1
        obtain ⟨_, hstk, hls, hn⟩ := addLoop_err _ _ _ _ _ _ _ _ hcl
        constructor
        · rw [← h2]; ext i
          · simp [hstk]
          · simp [hls]
        · omega
      | ok u => cases h1
    | none =>
      rw [hcl] at h
      by_cases hs : q > st.stock pid
      · simp [hs] at h
        exact ⟨h.2.1.symm, h.2.2.symm⟩
      · simp [hs] at h

theorem add_item_ok (st : St) (pid q : ℤ) (st' : St) (n : ℕ)
    (h : add_item st pid q = (Except.ok (), st', n)) :
    0 < q ∧ st'.stock = updStock st.stock pid (st.stock pid - q) ∧
      ((∃ pre e post, st.cart = pre ++ ⟨pid, e⟩ :: post ∧ pid ∉ ids pre ∧
          e + q ≤ st.stock pid ∧
          st'.cart = pre ++ ⟨pid, e + q⟩ :: post ∧
          n = check_low_stock (st.stock pid) + check_low_stock (st.stock pid - q)) ∨
       (pid ∉ ids st.cart ∧ q ≤ st.stock pid ∧ st'.cart = st.cart ++ [⟨pid, q⟩] ∧
          n = check_low_stock (st.stock pid - q))) := by
  by_cases hq : q ≤ 0
  · simp [add_item, hq] at h
  · refine ⟨not_le.mp hq, ?_⟩
    simp only [add_item, if_neg hq] at h
    cases hcl : addLoop st.stock pid q st.cart with
    | some r =>
      obtain ⟨r1, rstk, rls, rn⟩ := r
      rw [hcl] at h
      simp only [Prod.mk.injEq] at h
      obtain ⟨h1, h2, h3⟩ := h
      cases r1 with
      | error e' => cases h1
      | ok u =>
        obtain ⟨pre, e, post, hc, hpre, hle, hstk, hls, hn⟩ := addLoop_ok _ _ _ _ _ _ _ hcl
        refine ⟨by rw [← h2]; simp [hstk], Or.inl ⟨pre, e, post, hc, hpre, hle, ?_, ?_⟩⟩
        · rw [← h2]; simp [hls]
        · omega
    | none =>
      rw [hcl] at h
      by_cases hs : q > st.stock pid
      · simp [hs] at h
      · simp only [if_neg hs, Prod.mk.injEq] at h
        obtain ⟨_, h2, h3⟩ := h
        refine ⟨by rw [← h2], Or.inr ⟨?_, not_lt.mp hs, by rw [← h2], ?_⟩⟩
        · exact (addLoop_none_iff _ _ _ _).mp hcl
        · rw [← h3]; simp [updStock_same]

/-! ### `removeLoop` characterization -/

theorem removeLoop_nomatch (pid q : ℤ) (stock : ℤ → ℤ) (cart : List Line)
    (h : pid ∉ ids cart) :
    removeLoop pid q stock cart = (stock, cart, 0, false, false) := by
  induction cart generalizing stock with
  | nil => simp [removeLoop]
  | cons item rest ih =>
    rw [ids_cons] at h
    simp only [List.mem_cons, not_or] at h
    have hpid : ¬ item.pid = pid := fun hc => h.1 hc.symm
    simp [removeLoop, hpid, ih _ h.2]

theorem removeLoop_not_removed (pid q : ℤ) (stock : ℤ → ℤ) (cart : List Line)
    (stk : ℤ → ℤ) (ls : List Line) (n : ℕ)
    (h : removeLoop pid q stock cart = (stk, ls, n, false, false)) :
    stk = stock ∧ ls = cart ∧ n = 0 := by
  induction cart generalizing stock stk ls n with
  | nil =>
    simp only [removeLoop, Prod.mk.injEq] at h
    exact ⟨h.1.symm, h.2.1.symm, h.2.2.1.symm⟩
  | cons item rest ih =>
    by_cases hpid : item.pid = pid
    · by_cases hq : q > item.qty
      · simp [removeLoop, hpid, hq] at h
      · -- the success branch always reports removed or early: contradiction
        simp only [removeLoop, if_pos hpid, if_neg hq] at h
        by_cases hearly : (removeLoop pid q (updStock stock pid (stock pid + q)) rest).2.2.2.2
        · simp [hearly] at h
        · simp [hearly] at h
    · simp only [removeLoop, if_neg hpid] at h
      simp only [Prod.mk.injEq] at h
      obtain ⟨h1, h2, h3, h4, h5⟩ := h
      have hr : removeLoop pid q stock rest =
          ((removeLoop pid q stock rest).1, (removeLoop pid q stock rest).2.1,
           (removeLoop pid q stock rest).2.2.1, (removeLoop pid q stock rest).2.2.2.1,
           (removeLoop pid q stock rest).2.2.2.2) := rfl
      rw [h4, h5] at hr
      obtain ⟨g1, g2, g3⟩ := ih _ _ _ _ hr
      exact ⟨by rw [← h1, g1], by rw [← h2, g2], by rw [← h3, g3]⟩

theorem removeLoop_early (pid q : ℤ) (stock : ℤ → ℤ) (cart : List Line)
    (stk : ℤ → ℤ) (ls : List Line) (n : ℕ) (rm : Bool)
    (hnd : (ids cart).Nodup)
    (h : removeLoop pid q stock cart = (stk, ls, n, rm, true)) :
    stk = stock ∧ ls = cart ∧ n = 0 ∧ rm = false := by
  induction cart generalizing stock stk ls n rm with
  | nil => simp [removeLoop] at h
  | cons item rest ih =>
    rw [ids_cons] at hnd
    have hnd1 : item.pid ∉ ids rest := (List.nodup_cons.mp hnd).1
    have hnd2 : (ids rest).Nodup := (List.nodup_cons.mp hnd).2
    by_cases hpid : item.pid = pid
    · by_cases hq : q > item.qty
      · simp only [removeLoop, if_pos hpid, if_pos hq, Prod.mk.injEq] at h
        obtain ⟨h1, h2, h3, h4, -⟩ := h
        exact ⟨h1.symm, h2.symm, h3.symm, h4.symm⟩
      · have hnom : removeLoop pid q (updStock stock pid (stock pid + q)) rest
            = (updStock stock pid (stock pid + q), rest, 0, false, false) :=
          removeLoop_nomatch _ _ _ _ (hpid ▸ hnd1)
        simp only [removeLoop, if_pos hpid, if_neg hq, hnom] at h
        simp at h
    · simp only [removeLoop, if_neg hpid, Prod.mk.injEq] at h
      obtain ⟨h1, h2, h3, h4, h5⟩ := h
      have hr : removeLoop pid q stock rest =
          ((removeLoop pid q stock rest).1, (removeLoop pid q stock rest).2.1,
           (removeLoop pid q stock rest).2.2.1, (removeLoop pid q stock rest).2.2.2.1,
           (removeLoop pid q stock rest).2.2.2.2) := rfl
      rw [h5] at hr
      obtain ⟨g1, g2, g3, g4⟩ := ih _ _ _ _ _ hnd2 hr
      exact ⟨by rw [← h1, g1], by rw [← h2, g2], by rw [← h3, g3], by rw [← h4, g4]⟩

theorem removeLoop_ok (pid q : ℤ) (stock : ℤ → ℤ) (cart : List Line)
    (stk : ℤ → ℤ) (ls : List Line) (n : ℕ)
    (hnd : (ids cart).Nodup)
    (h : removeLoop pid q stock cart = (stk, ls, n, true, false)) :
    ∃ pre e post, cart = pre ++ ⟨pid, e⟩ :: post ∧ pid ∉ ids pre ∧ pid ∉ ids post ∧
      q ≤ e ∧ stk = updStock stock pid (stock pid + q) ∧
      ls = pre ++ (if e - q = 0 then [] else [⟨pid, e - q⟩]) ++ post ∧
      n = 2 * check_low_stock (stock pid + q) := by
  induction cart generalizing stock stk ls n with
  | nil => simp [removeLoop] at h
  | cons item rest ih =>
    rw [ids_cons] at hnd
    have hnd1 : item.pid ∉ ids rest := (List.nodup_cons.mp hnd).1
    have hnd2 : (ids rest).Nodup := (List.nodup_cons.mp hnd).2
    by_cases hpid : item.pid = pid
    · by_cases hq : q > item.qty
      · simp [removeLoop, hpid, hq] at h
      · have hnom : removeLoop pid q (updStock stock pid (stock pid + q)) rest
            = (updStock stock pid (stock pid + q), rest, 0, false, false) :=
          removeLoop_nomatch _ _ _ _ (hpid ▸ hnd1)
        simp only [removeLoop, if_pos hpid, if_neg hq, hnom, updStock_same] at h
        rw [if_neg (by simp)] at h
        simp only [Prod.mk.injEq] at h
        obtain ⟨h1, h2, h3, -⟩ := h
        refine ⟨[], item.qty, rest, by simp [← hpid], by simp [ids], hpid ▸ hnd1,
          not_lt.mp hq, ?_, ?_, ?_⟩
        · exact h1.symm
        · rw [← h2]; simp [hpid]
        · rw [← h3]; omega
    · simp only [removeLoop, if_neg hpid, Prod.mk.injEq] at h
      obtain ⟨h1, h2, h3, h4, h5⟩ := h
      have hr : removeLoop pid q stock rest =
          ((removeLoop pid q stock rest).1, (removeLoop pid q stock rest).2.1,
           (removeLoop pid q stock rest).2.2.1, (removeLoop pid q stock rest).2.2.2.1,
           (removeLoop pid q stock rest).2.2.2.2) := rfl
      rw [h4, h5] at hr
      obtain ⟨pre, e, post, hc, hpre, hpost, hle, hstk, hls, hn⟩ := ih _ _ _ _ hnd2 hr
      refine ⟨item :: pre, e, post, by simp [hc], ?_, hpost, hle,
        by rw [← h1, hstk], ?_, by rw [← h3, hn]⟩
      · rw [ids_cons]
        simp only [List.mem_cons, not_or]
        exact ⟨fun hcontra => hpid hcontra.symm, hpre⟩
      · rw [← h2, hls]; simp

/-! ### `remove_item` characterization -/

theorem remove_item_err (st : St) (pid q : ℤ) (st' : St) (n : ℕ) (e : CartError)
    (hnd : (ids st.cart).Nodup)
    (h : remove_item st pid q = (Except.error e, st', n)) : st' = st ∧ n = 0 := by
  rcases hrl : removeLoop pid q st.stock st.cart with ⟨stk, ls, m, rm, early⟩
  simp only [remove_item, hrl] at h
  cases early with
  | true =>
    simp at h
    obtain ⟨g1, g2, g3, -⟩ := removeLoop_early _ _ _ _ _ _ _ _ hnd hrl
    subst g1; subst g2
    exact ⟨h.2.1.symm, by omega⟩
  | false =>
    cases rm with
    | true => simp at h
    | false =>
      simp at h
      obtain ⟨g1, g2, g3⟩ := removeLoop_not_removed _ _ _ _ _ _ _ hrl
      subst g1; subst g2
      exact ⟨h.2.1.symm, by omega⟩

theorem remove_item_ok (st : St) (pid q : ℤ) (st' : St) (n : ℕ)
    (hnd : (ids st.cart).Nodup)
    (h : remove_item st pid q = (Except.ok (), st', n)) :
    ∃ pre e post, st.cart = pre ++ ⟨pid, e⟩ :: post ∧ pid ∉ ids pre ∧ pid ∉ ids post ∧
      q ≤ e ∧ st'.stock = updStock st.stock pid (st.stock pid + q) ∧
      st'.cart = pre ++ (if e - q = 0 then [] else [⟨pid, e - q⟩]) ++ post ∧
      n = 2 * check_low_stock (st.stock pid + q) := by
  rcases hrl : removeLoop pid q st.stock st.cart with ⟨stk, ls, m, rm, early⟩
  simp only [remove_item, hrl] at h
  cases early with
  | true => simp at h
  | false =>
    cases rm with
    | false => simp at h
    | true =>
      simp at h
      obtain ⟨pre, e, post, hc, hpre, hpost, hle, hstk, hls, hn⟩ :=
        removeLoop_ok _ _ _ _ _ _ _ hnd hrl
      have hst : st' = St.mk stk ls := h.1.symm
      have hm : n = m := by omega
      subst hst; subst hm
      exact ⟨pre, e, post, hc, hpre, hpost, hle, hstk, hls, hn⟩

/-! ### The reachable-state invariant -/

/-- The cart engine's data-model invariant (spec §3): at most one line per
product id, strictly positive line quantities, and stock conservation
relative to the initial stocks `init`. -/
def Inv (init : ℤ → ℤ) (st : St) : Prop :=
  (ids st.cart).Nodup ∧ (∀ l ∈ st.cart, 0 < l.qty) ∧
    ∀ i, st.stock i + cartQty st.cart i = init i

theorem inv_add (init : ℤ → ℤ) (st st' : St) (pid q : ℤ) (n : ℕ)
    (hinv : Inv init st) (h : add_item st pid q = (Except.ok (), st', n)) :
    Inv init st' := by
  obtain ⟨hnd, hpos, hcons⟩ := hinv
  obtain ⟨hq, hstk, hcart⟩ := add_item_ok _ _ _ _ _ h
  cases hcart with
  | inl hex =>
    obtain ⟨pre, e, post, hc, hpre, hle, hc', -⟩ := hex
    have hids : ids st'.cart = ids st.cart := by
      rw [hc, hc', ids_append, ids_append, ids_cons, ids_cons]
    refine ⟨by rw [hids]; exact hnd, ?_, ?_⟩
    · intro l hl
      rw [hc'] at hl
      rcases List.mem_append.mp hl with hl | hl
      · exact hpos l (by rw [hc]; exact List.mem_append.mpr (Or.inl hl))
      · rcases List.mem_cons.mp hl with rfl | hl
        · have he : (0 : ℤ) < e :=
            hpos ⟨pid, e⟩ (by rw [hc]; exact List.mem_append.mpr (Or.inr (List.mem_cons_self _ _)))
          simpa using add_pos he hq
        · exact hpos l (by rw [hc]; exact List.mem_append.mpr (Or.inr (List.mem_cons_of_mem _ hl)))
    · intro i
      have horig := hcons i
      rw [hc, cartQty_append, cartQty_cons] at horig
      rw [hstk, hc', cartQty_append, cartQty_cons]
      by_cases hi : i = pid
      · subst hi
        rw [updStock_same]
        simp at horig ⊢
        omega
      · rw [updStock_other _ _ _ _ hi]
        have hne : ¬ (pid = i) := fun hcontra => hi hcontra.symm
        simp [hne] at horig ⊢
        omega
  | inr hnew =>
    obtain ⟨hnotin, hle, hc', -⟩ := hnew
    refine ⟨?_, ?_, ?_⟩
    · rw [hc', ids_append]
      rw [List.nodup_append]
      refine ⟨hnd, by simp [ids], ?_⟩
      intro a ha hb
      simp [ids] at hb
      subst hb
      exact hnotin ha
    · intro l hl
      rw [hc'] at hl
      rcases List.mem_append.mp hl with hl | hl
      · exact hpos l hl
      · rcases List.mem_cons.mp hl with rfl | hl
        · exact hq
        · simp at hl
    · intro i
      have horig := hcons i
      rw [hstk, hc', cartQty_append, cartQty_cons, cartQty_nil]
      by_cases hi : i = pid
      · subst hi
        rw [updStock_same]
        simp
        omega
      · rw [updStock_other _ _ _ _ hi]
        have hne : ¬ (pid = i) := fun hcontra => hi hcontra.symm
        simp [hne]
        omega

theorem inv_remove (init : ℤ → ℤ) (st st' : St) (pid q : ℤ) (n : ℕ)
    (hinv : Inv init st) (h : remove_item st pid q = (Except.ok (), st', n)) :
    Inv init st' := by
  obtain ⟨hnd, hpos, hcons⟩ := hinv
  obtain ⟨pre, e, post, hc, hpre, hpost, hle, hstk, hc', -⟩ :=
    remove_item_ok _ _ _ _ _ hnd h
  have hqe : (0 : ℤ) < e :=
    hpos ⟨pid, e⟩ (by rw [hc]; exact List.mem_append.mpr (Or.inr (List.mem_cons_self _ _)))
  refine ⟨?_, ?_, ?_⟩
  · rw [hc, ids_append, ids_cons] at hnd
    rw [hc', ids_append, ids_append]
    by_cases hz : e - q = 0
    · rw [if_pos hz]
      refine List.Nodup.sublist ?_ hnd
      simp only [ids, List.map_nil, List.append_nil]
      exact List.Sublist.append_left (List.sublist_cons_self _ _) _
    · rw [if_neg hz]
      simpa [ids] using hnd
  · intro l hl
    rw [hc'] at hl
    rcases List.mem_append.mp hl with hl | hl
    · rcases List.mem_append.mp hl with hl | hl
      · exact hpos l (by rw [hc]; exact List.mem_append.mpr (Or.inl hl))
      · by_cases hz : e - q = 0
        · rw [if_pos hz] at hl
          simp at hl
        · rw [if_neg hz] at hl
          simp only [List.mem_singleton] at hl
          subst hl
          show (0 : ℤ) < e - q
          omega
    · exact hpos l (by rw [hc]; exact List.mem_append.mpr (Or.inr (List.mem_cons_of_mem _ hl)))
  · intro i
    have horig := hcons i
    rw [hc, cartQty_append, cartQty_cons] at horig
    rw [hstk, hc', cartQty_append, cartQty_append]
    by_cases hi : i = pid
    · subst hi
      rw [updStock_same]
      by_cases hz : e - q = 0
      · rw [if_pos hz, cartQty_nil]
        simp at horig ⊢
        omega
      · rw [if_neg hz, cartQty_cons, cartQty_nil]
        simp at horig ⊢
        omega
    · rw [updStock_other _ _ _ _ hi]
      have hne : ¬ (pid = i) := fun hcontra => hi hcontra.symm
      simp [hne] at horig
      by_cases hz : e - q = 0
      · rw [if_pos hz, cartQty_nil]
        omega
      · rw [if_neg hz, cartQty_cons, cartQty_nil]
        simp [hne]
        omega

theorem reach_inv (init : ℤ → ℤ) (st : St) (h : Reach init st) : Inv init st := by
  induction h with
  | base =>
    refine ⟨by simp [ids], by simp, ?_⟩
    intro i
    simp [cartQty]
  | add hr hop ih => exact inv_add _ _ _ _ _ _ ih hop
  | rem hr hop ih => exact inv_remove _ _ _ _ _ _ ih hop

/-! ### Further computation lemmas -/

/-- Helper: a triple whose first component is `error e` is the error triple of
its own projections. -/
theorem eq_err_split {p : (Except CartError Unit) × St × ℕ} {e : CartError}
    (h : p.1 = Except.error e) : p = (Except.error e, p.2.1, p.2.2) := by
  obtain ⟨a, b, c⟩ := p
  simp_all

/-- `remove_item`'s loop passes over a cart segment holding no line for
`pid` without touching it. -/
theorem removeLoop_skip (pid q : ℤ) (stock : ℤ → ℤ) (pre rest : List Line)
    (h : pid ∉ ids pre) :
    removeLoop pid q stock (pre ++ rest) =
      ((removeLoop pid q stock rest).1, pre ++ (removeLoop pid q stock rest).2.1,
       (removeLoop pid q stock rest).2.2.1, (removeLoop pid q stock rest).2.2.2.1,
       (removeLoop pid q stock rest).2.2.2.2) := by
  induction pre with
  | nil => simp
  | cons l pre' ih =>
    rw [ids_cons] at h
    simp only [List.mem_cons, not_or] at h
    have hpid : ¬ l.pid = pid := fun hc => h.1 hc.symm
    rw [List.cons_append]
    simp only [removeLoop, if_neg hpid]
    rw [ih h.2]
    simp

/-- `remove_item`'s loop at a matching head line with enough quantity, when
the rest of the snapshot holds no further line for `pid`. -/
theorem removeLoop_cons_succ (pid q : ℤ) (stock : ℤ → ℤ) (item : Line)
    (rest : List Line) (hpid : item.pid = pid) (hq : ¬ q > item.qty)
    (hrest : pid ∉ ids rest) :
    removeLoop pid q stock (item :: rest) =
      (updStock stock pid (stock pid + q),
       (if item.qty - q = 0 then [] else [⟨item.pid, item.qty - q⟩]) ++ rest,
       check_low_stock (stock pid + q) + check_low_stock (stock pid + q),
       true, false) := by
  have hnom := removeLoop_nomatch pid q (updStock stock pid (stock pid + q)) rest hrest
  simp only [removeLoop, if_pos hpid, if_neg hq, hnom, updStock_same]
  simp

/-- Evaluating the restocking loop of `cancel_sale` at one product. -/
theorem restock_eval (cart : List Line) (stock : ℤ → ℤ) (i : ℤ) :
    restock stock cart i = stock i + cartQty cart i := by
  induction cart generalizing stock with
  | nil => simp [restock, cartQty]
  | cons l rest ih =>
    rw [restock, ih, cartQty_cons]
    by_cases hi : l.pid = i
    · subst hi
      rw [updStock_same, if_pos rfl]
      omega
    · have hne : ¬ (i = l.pid) := fun hc => hi hc.symm
      rw [updStock_other _ _ _ _ hne, if_neg hi]
      omega

/-! ### Claim theorems -/

/-- C1: the spec's §4.3 existing-line rule says the add fails iff
`requested_total` exceeds `product.stock + existing_quantity` (equivalently,
succeeds whenever the newly requested quantity alone fits in the unreserved
stock).  The code instead compares `requested_total` against bare
`product.stock`, which double-counts the already-reserved quantity.  Witnessed
here: from initial stock 10, adding 6 leaves stock 4 and a cart line of 6;
a further add of 4 satisfies the spec's success condition
(`6 + 4 ≤ 4 + 6` and `4 ≤ 4`), yet the code rejects it with
`InsufficientStock`. -/
theorem add_line_existing_check_bug :
    (add_item ⟨fun _ => 10, []⟩ 1 6).1 = Except.ok () ∧
    (add_item ⟨fun _ => 10, []⟩ 1 6).2.1.stock 1 = 4 ∧
    (add_item ⟨fun _ => 10, []⟩ 1 6).2.1.cart = [⟨1, 6⟩] ∧
    (add_item (add_item ⟨fun _ => 10, []⟩ 1 6).2.1 1 4).1 =
      Except.error CartError.insufficientStock ∧
    ¬ ((6 + 4 : ℤ) > (add_item ⟨fun _ => 10, []⟩ 1 6).2.1.stock 1 + 6) ∧
    ¬ ((4 : ℤ) > (add_item ⟨fun _ => 10, []⟩ 1 6).2.1.stock 1) := by
  refine ⟨rfl, rfl, rfl, rfl, by decide, by decide⟩

/-- C2: stock conservation — after any sequence of successful
`add_line`/`remove_line` operations from an empty cart, every product's
initial stock equals its current stock plus the quantity the cart holds
for it. -/
theorem stock_conservation (init : ℤ → ℤ) (st : St) (h : Reach init st)
    (pid : ℤ) : init pid = st.stock pid + cartQty st.cart pid :=
  ((reach_inv init st h).2.2 pid).symm

theorem stock_conservation_witness :
    (10 : ℤ) = (add_item ⟨fun _ => 10, []⟩ 1 2).2.1.stock 1 +
      cartQty (add_item ⟨fun _ => 10, []⟩ 1 2).2.1.cart 1 :=
  stock_conservation (fun _ => 10) _
    (@Reach.add (fun _ => 10) ⟨fun _ => 10, []⟩ _ 1 2 _ Reach.base rfl) 1

/-- C3: atomicity of failure — on any cart state satisfying the data model's
one-line-per-product invariant, an `add_line` or `remove_line` call returning
any failure leaves stock and the cart lines exactly unchanged. -/
theorem atomic_failure (st : St) (pid q : ℤ) (hnd : (ids st.cart).Nodup) :
    (∀ e : CartError, (add_item st pid q).1 = Except.error e →
      (add_item st pid q).2.1 = st) ∧
    (∀ e : CartError, (remove_item st pid q).1 = Except.error e →
      (remove_item st pid q).2.1 = st) := by
  constructor
  · intro e he
    exact (add_item_err st pid q _ _ e (eq_err_split he)).1
  · intro e he
    exact (remove_item_err st pid q _ _ e hnd (eq_err_split he)).1

theorem atomic_failure_witness :
    (remove_item ⟨fun _ => 0, [⟨1, 3⟩]⟩ 1 5).2.1 = ⟨fun _ => 0, [⟨1, 3⟩]⟩ :=
  (atomic_failure ⟨fun _ => 0, [⟨1, 3⟩]⟩ 1 5 (by simp [ids])).2
    CartError.excessiveRemoval rfl

/-- C4: pricing determinism — `recalculate_total` yields discount 0 for a
subtotal strictly below 5000, exactly 5% of the subtotal at or above 5000,
and total = subtotal + tax_rate × subtotal − discount. -/
theorem pricing_determinism (price : ℤ → ℚ) (tax_rate : ℚ) (st : St) :
    recalculate_total price tax_rate st =
      (calculate_subtotal price st.cart,
       tax_rate * calculate_subtotal price st.cart,
       if calculate_subtotal price st.cart < 5000 then 0
         else (5 / 100) * calculate_subtotal price st.cart,
       calculate_subtotal price st.cart +
         tax_rate * calculate_subtotal price st.cart -
         (if calculate_subtotal price st.cart < 5000 then 0
          else (5 / 100) * calculate_subtotal price st.cart)) := by
  simp only [recalculate_total, discount_amount, Discount.apply_discount]
  by_cases hlt : calculate_subtotal price st.cart < 5000
  · rw [if_neg (not_le.mpr hlt), if_pos hlt]
    simp [mul_comm]
  · rw [if_pos (not_lt.mp hlt), if_neg hlt]
    simp [mul_comm]

/-- `remove_item` unfolded at a loop run that reports a removal and no early
exit. -/
theorem remove_item_of_loop (st : St) (pid q : ℤ) (stk : ℤ → ℤ)
    (ls : List Line) (n : ℕ)
    (h : removeLoop pid q st.stock st.cart = (stk, ls, n, true, false)) :
    remove_item st pid q = (Except.ok (), ⟨stk, ls⟩, n) := by
  simp only [remove_item, h]
  simp

/-- C5: round trip — on any cart state satisfying the data-model invariants
(one line per product id, strictly positive line quantities), a successful
`add_line(p, q)` immediately followed by `remove_line(p.id, q)` succeeds and
restores stock and the cart lines exactly to their pre-add values, leaving no
residual zero-quantity line. -/
theorem round_trip (st st₁ : St) (pid q : ℤ) (n₁ : ℕ)
    (hnd : (ids st.cart).Nodup) (hpos : ∀ l ∈ st.cart, 0 < l.qty)
    (hadd : add_item st pid q = (Except.ok (), st₁, n₁)) :
    (remove_item st₁ pid q).1 = Except.ok () ∧
    (remove_item st₁ pid q).2.1 = st := by
  obtain ⟨hq, hstk, hc⟩ := add_item_ok st pid q _ _ hadd
  cases hc with
  | inl hex =>
    obtain ⟨pre, e, post, hcin, hpre, hle, hc', -⟩ := hex
    have he : (0 : ℤ) < e :=
      hpos ⟨pid, e⟩
        (by rw [hcin]; exact List.mem_append.mpr (Or.inr (List.mem_cons_self _ _)))
    have hpost : pid ∉ ids post := by
      rw [hcin, ids_append, ids_cons] at hnd
      exact (List.nodup_cons.mp (List.nodup_append.mp hnd).2.1).1
    have hhead := removeLoop_cons_succ pid q st₁.stock ⟨pid, e + q⟩ post rfl
      (by show ¬ q > e + q; omega) hpost
    have hfin : removeLoop pid q st₁.stock st₁.cart =
        (updStock st₁.stock pid (st₁.stock pid + q),
         pre ++ ((if e + q - q = 0 then [] else [⟨pid, e + q - q⟩]) ++ post),
         check_low_stock (st₁.stock pid + q) + check_low_stock (st₁.stock pid + q),
         true, false) := by
      rw [hc', removeLoop_skip pid q st₁.stock pre (⟨pid, e + q⟩ :: post) hpre,
        hhead]
    have hne0 : ¬ (e + q - q = 0) := by omega
    rw [if_neg hne0] at hfin
    rw [remove_item_of_loop st₁ pid q _ _ _ hfin]
    refine ⟨rfl, ?_⟩
    refine St.ext ?_ ?_
    · funext i
      dsimp only
      by_cases hi : i = pid
      · subst hi
        rw [updStock_same, hstk, updStock_same]
        ring
      · rw [updStock_other _ _ _ _ hi, hstk, updStock_other _ _ _ _ hi]
    · show pre ++ ([⟨pid, e + q - q⟩] ++ post) = st.cart
      have heq : e + q - q = e := by ring
      rw [heq, hcin]
      simp
  | inr hnew =>
    obtain ⟨hnotin, hle, hc', -⟩ := hnew
    have hhead := removeLoop_cons_succ pid q st₁.stock ⟨pid, q⟩ ([] : List Line)
      rfl (by show ¬ q > q; omega) (by simp [ids])
    have hfin : removeLoop pid q st₁.stock st₁.cart =
        (updStock st₁.stock pid (st₁.stock pid + q),
         st.cart ++ ((if q - q = 0 then [] else [⟨pid, q - q⟩]) ++ []),
         check_low_stock (st₁.stock pid + q) + check_low_stock (st₁.stock pid + q),
         true, false) := by
      rw [hc', removeLoop_skip pid q st₁.stock st.cart [⟨pid, q⟩] hnotin, hhead]
    have hz : q - q = 0 := by ring
    rw [if_pos hz] at hfin
    rw [remove_item_of_loop st₁ pid q _ _ _ hfin]
    refine ⟨rfl, ?_⟩
    refine St.ext ?_ ?_
    · funext i
      dsimp only
      by_cases hi : i = pid
      · subst hi
        rw [updStock_same, hstk, updStock_same]
        ring
      · rw [updStock_other _ _ _ _ hi, hstk, updStock_other _ _ _ _ hi]
    · simp

theorem round_trip_witness :
    (remove_item (add_item ⟨fun _ => 8, []⟩ 4 2).2.1 4 2).1 = Except.ok () ∧
    (remove_item (add_item ⟨fun _ => 8, []⟩ 4 2).2.1 4 2).2.1 =
      ⟨fun _ => 8, []⟩ :=
  round_trip ⟨fun _ => 8, []⟩ _ 4 2 _ (by simp [ids]) (by simp) rfl

/-- C6 counterexample: a successful `remove_line` that brings the product's
stock back to a value at most 5 emits the low-stock signal twice, not once
per successful mutation as claimed. -/
theorem low_stock_double_signal :
    (remove_item ⟨fun _ => 0, [⟨2, 3⟩]⟩ 2 3).1 = Except.ok () ∧
    (remove_item ⟨fun _ => 0, [⟨2, 3⟩]⟩ 2 3).2.1.stock 2 ≤ 5 ∧
    (remove_item ⟨fun _ => 0, [⟨2, 3⟩]⟩ 2 3).2.2 = 2 := by
  refine ⟨rfl, by decide, rfl⟩

/-- C6 amended: every successful `add_line`/`remove_line` mutation emits the
low-stock signal (at least once) iff the resulting `product.stock` after the
mutation is at most 5; the signal is not always unique — `remove_line` emits
it twice whenever it fires, and `add_line` into an existing line emits it
twice when the pre-decrement stock was already at most 5. -/
theorem low_stock_signal_amended (st : St) (pid q : ℤ)
    (hnd : (ids st.cart).Nodup) :
    ((add_item st pid q).1 = Except.ok () →
      (1 ≤ (add_item st pid q).2.2 ↔ (add_item st pid q).2.1.stock pid ≤ 5)) ∧
    ((remove_item st pid q).1 = Except.ok () →
      (1 ≤ (remove_item st pid q).2.2 ↔
        (remove_item st pid q).2.1.stock pid ≤ 5)) := by
  constructor
  · intro hok
    obtain ⟨hq, hstk, hc⟩ := add_item_ok st pid q _ _ (eq_ok_split hok)
    have hsp : (add_item st pid q).2.1.stock pid = st.stock pid - q := by
      rw [hstk, updStock_same]
    rw [hsp]
    cases hc with
    | inl hex =>
      obtain ⟨-, -, -, -, -, -, -, hn⟩ := hex
      rw [hn]
      unfold check_low_stock
      by_cases h1 : st.stock pid ≤ 5 <;> by_cases h2 : st.stock pid - q ≤ 5 <;>
        simp [h1, h2] <;> omega
    | inr hnew =>
      obtain ⟨-, -, -, hn⟩ := hnew
      rw [hn]
      unfold check_low_stock
      by_cases h2 : st.stock pid - q ≤ 5 <;> simp [h2]
  · intro hok
    obtain ⟨pre, e, post, hc, hpre, hpost, hle, hstk, hc', hn⟩ :=
      remove_item_ok st pid q _ _ hnd (eq_ok_split hok)
    rw [hn, hstk, updStock_same]
    unfold check_low_stock
    by_cases h2 : st.stock pid + q ≤ 5 <;> simp [h2]

theorem low_stock_signal_amended_witness :
    1 ≤ (remove_item ⟨fun _ => 1, [⟨3, 2⟩]⟩ 3 2).2.2 ↔
      (remove_item ⟨fun _ => 1, [⟨3, 2⟩]⟩ 3 2).2.1.stock 3 ≤ 5 :=
  (low_stock_signal_amended ⟨fun _ => 1, [⟨3, 2⟩]⟩ 3 2 (by simp [ids])).2 rfl

/-- C7: checkout commit — tendering at least the computed total on a
non-empty cart commits: change is payment minus total, the cart is cleared,
and no stock cell changes. -/
theorem checkout_commit (price : ℤ → ℚ) (tax_rate payment : ℚ) (st : St)
    (hne : st.cart ≠ [])
    (hpay : (recalculate_total price tax_rate st).2.2.2 ≤ payment) :
    checkout_tender price tax_rate st payment =
      some (payment - (recalculate_total price tax_rate st).2.2.2,
        ⟨st.stock, []⟩) := by
  simp only [recalculate_total] at hpay ⊢
  simp only [checkout_tender]
  rw [if_neg hne, if_neg (not_lt.mpr hpay)]

theorem checkout_commit_witness :
    checkout_tender (fun _ => 600) (10 / 100) ⟨fun _ => 0, [⟨1, 10⟩]⟩ 7000 =
      some (7000 -
        (recalculate_total (fun _ => 600) (10 / 100)
          ⟨fun _ => 0, [⟨1, 10⟩]⟩).2.2.2,
        ⟨(⟨fun _ => 0, [⟨1, 10⟩]⟩ : St).stock, []⟩) :=
  checkout_commit (fun _ => 600) (10 / 100) 7000 ⟨fun _ => 0, [⟨1, 10⟩]⟩
    (by simp)
    (by norm_num [recalculate_total, calculate_subtotal, discount_amount,
      Discount.apply_discount])

/-- C8: checkout cancel — a confirmed cancellation restocks every cart line
and clears the cart, so each product's stock returns to its value before the
transaction began. -/
theorem checkout_cancel (init : ℤ → ℤ) (st : St) (h : Reach init st) :
    (∀ i, (cancel_sale st).stock i = init i) ∧ (cancel_sale st).cart = [] := by
  refine ⟨fun i => ?_, rfl⟩
  show restock st.stock st.cart i = init i
  rw [restock_eval]
  exact (reach_inv init st h).2.2 i

theorem checkout_cancel_witness :
    (cancel_sale (add_item ⟨fun _ => 7, []⟩ 1 3).2.1).stock 1 = 7 :=
  (checkout_cancel (fun _ => 7) _
    (@Reach.add (fun _ => 7) ⟨fun _ => 7, []⟩ _ 1 3 _ Reach.base rfl)).1 1

/-- C9: admin override during shortfall removal — whatever the admin-login
outcome and whatever the removal step does, the active principal afterwards
is the pre-override principal, and the removal step runs exactly under the
principals returned by a successful admin login (one elevated removal on
success, none on failure). -/
theorem admin_override_scope (users : String → Option User)
    (username password : String) (current : User)
    (removal : User → St → Bool × St) (st : St) :
    (checkout_admin_override users username password current removal st).1 =
      current ∧
    (checkout_admin_override users username password current removal st).2.2.2 =
      ((admin_login users username password current).1).toList := by
  simp only [checkout_admin_override, admin_login]
  cases hu : users username with
  | none => simp
  | some u =>
    dsimp only
    by_cases hcred : (u.password == password) = true ∧ has_permission u "admin" = true
    · rw [if_pos hcred]
      simp
    · rw [if_neg hcred]
      simp

/-- C10: line uniqueness — every cart reachable from the empty cart by
successful `add_line`/`remove_line` operations holds at most one line per
product id. -/
theorem cart_line_uniqueness (init : ℤ → ℤ) (st : St) (h : Reach init st) :
    (ids st.cart).Nodup :=
  (reach_inv init st h).1

theorem cart_line_uniqueness_witness :
    (ids (add_item (add_item ⟨fun _ => 9, []⟩ 1 2).2.1 2 3).2.1.cart).Nodup :=
  cart_line_uniqueness (fun _ => 9) _
    (@Reach.add (fun _ => 9) ((add_item ⟨fun _ => 9, []⟩ 1 2).2.1) _ 2 3 _
      (@Reach.add (fun _ => 9) ⟨fun _ => 9, []⟩ _ 1 2 _ Reach.base rfl) rfl)

end POS
